import Mathlib

/-!
Verification of the prysm fork-choice excerpt (doubly-linked tree fork choice,
unrealized justification, proposer boost, weak-subjectivity verifier).

Shallow embedding conventions:
* 32-byte roots (`[32]byte` / `[fieldparams.RootLength]byte`) are modelled as
  `List Nat` of the byte values; the zero hash is 32 zero bytes.
* `uint64` balance/weight arithmetic wraps modulo `2^64` exactly as Go's does;
  the wrap is written explicitly (`% U64`).  Epochs and slots
  (`primitives.Epoch`, `primitives.Slot`) are modelled as `Nat`: the functions
  under study only compare them and add small constants, and the claims treat
  them as mathematical integers.
* Go maps keyed by root are modelled as association lists; Go's in-place
  mutation of tree nodes is modelled as pure recursion returning the updated
  tree (the Go `children` pointers form a tree, so there is no aliasing).
* Antithesis `assert.*` calls log but never abort nor alter control flow, so
  they have no counterpart in the embedding.
-/

namespace Prysm

/-- A 32-byte root, as the list of its byte values. -/
abbrev Root := List Nat

/-- `params.BeaconConfig().ZeroHash`: 32 zero bytes. -/
def zeroHash : Root := List.replicate 32 0

/-- `2^64`, the modulus of Go's `uint64` arithmetic. -/
def U64 : Nat := 2 ^ 64

/-- Go `uint64` addition (`+` wraps modulo `2^64`). -/
def u64add (a b : Nat) : Nat := (a + b) % U64

/-- Go `uint64` subtraction (`-` wraps modulo `2^64`). -/
def u64sub (a b : Nat) : Nat := (a + (U64 - b % U64)) % U64

/-- Go's `bytes.Compare`: lexicographic byte-wise comparison returning
`-1`, `0` or `1`. -/
def bytesCompare : List Nat → List Nat → Int
  | [], [] => 0
  | [], _ :: _ => -1
  | _ :: _, [] => 1
  | a :: as, b :: bs =>
    if a < b then -1
    else if b < a then 1
    else bytesCompare as bs

/-- A checkpoint `{epoch, root}` (`forkchoicetypes.Checkpoint` /
`ethpb.Checkpoint`; the `[]byte` ↔ `[32]byte` conversion via
`bytesutil.ToBytes32` is the identity on our `Root`). -/
structure Checkpoint where
  epoch : Nat
  root : Root
deriving DecidableEq, Repr

/-- The viability test on the relevant epoch fields
(`Node.viableForHead` body, applied to a justified-epoch value). -/
def viableForHeadE (nodeJustifiedEpoch justifiedEpoch currentEpoch : Nat) : Bool :=
  if justifiedEpoch = 0 then true
  else nodeJustifiedEpoch == justifiedEpoch || decide (nodeJustifiedEpoch + 2 ≥ currentEpoch)

/-- Information the algorithms read off a `bestDescendant` pointer: the
descendant's root and realized justified epoch. -/
structure BestInfo where
  root : Root
  justifiedEpoch : Nat
deriving DecidableEq, Repr

/-- A fork-choice tree node (`doublylinkedtree.Node`).  The Go struct's
`parent` back-pointer is implicit in the tree shape; `bestDescendant *Node`
is modelled as the fields the embedded algorithms read from it. -/
inductive Node where
  | mk (root : Root) (slot : Nat) (justifiedEpoch finalizedEpoch : Nat)
       (balance weight : Nat) (bestDescendant : Option BestInfo)
       (children : List Node)

def Node.root : Node → Root
  | .mk r _ _ _ _ _ _ _ => r

def Node.slot : Node → Nat
  | .mk _ s _ _ _ _ _ _ => s

def Node.justifiedEpoch : Node → Nat
  | .mk _ _ je _ _ _ _ _ => je

def Node.finalizedEpoch : Node → Nat
  | .mk _ _ _ fe _ _ _ _ => fe

def Node.balance : Node → Nat
  | .mk _ _ _ _ b _ _ _ => b

def Node.weight : Node → Nat
  | .mk _ _ _ _ _ w _ _ => w

def Node.bestDescendant : Node → Option BestInfo
  | .mk _ _ _ _ _ _ bd _ => bd

def Node.children : Node → List Node
  | .mk _ _ _ _ _ _ _ cs => cs

/-- `(*Node).viableForHead`: a node is viable for head iff the store's
justified epoch is zero, or the node's justified epoch matches it, or the
node's justified epoch is at most two epochs behind the current epoch. -/
def Node.viableForHead (n : Node) (justifiedEpoch currentEpoch : Nat) : Bool :=
  viableForHeadE n.justifiedEpoch justifiedEpoch currentEpoch

/-- `(*Node).leadsToViableHead`: the node's best descendant (or the node
itself when it has none) is viable for head. -/
def Node.leadsToViableHead (n : Node) (justifiedEpoch currentEpoch : Nat) : Bool :=
  match n.bestDescendant with
  | none => n.viableForHead justifiedEpoch currentEpoch
  | some bd => viableForHeadE bd.justifiedEpoch justifiedEpoch currentEpoch

/-- The running `childrenWeight` accumulator of `applyWeightChanges`:
starting from `acc`, add each child's weight in `uint64` arithmetic. -/
def sumWeights : Nat → List Node → Nat
  | acc, [] => acc
  | acc, c :: rest => sumWeights (u64add acc c.weight) rest

mutual

/-- `(*Node).applyWeightChanges`: recompute the weights of this node and all
of its descendants from the balances, post-order; the zero-root sentinel's
own weight is not recomputed (the `n.root == ZeroHash` early return comes
after the recursion into children). -/
def Node.applyWeightChanges : Node → Node
  | .mk r s je fe b w bd cs =>
    let cs2 := applyWeightChangesList cs
    if r = zeroHash then .mk r s je fe b w bd cs2
    else .mk r s je fe b (u64add b (sumWeights 0 cs2)) bd cs2

/-- The `for _, child := range n.children` recursion of `applyWeightChanges`. -/
def applyWeightChangesList : List Node → List Node
  | [] => []
  | c :: rest => c.applyWeightChanges :: applyWeightChangesList rest

end

mutual

/-- All the nodes of the subtree rooted at `n` (the node itself included). -/
def Node.allNodes : Node → List Node
  | .mk r s je fe b w bd cs => .mk r s je fe b w bd cs :: allNodesList cs

/-- Union of `allNodes` over a list of subtrees. -/
def allNodesList : List Node → List Node
  | [] => []
  | c :: rest => c.allNodes ++ allNodesList rest

end

/-- The `BestInfo` a `bestDescendant` pointer to `c` itself would carry. -/
def Node.selfInfo (c : Node) : BestInfo :=
  { root := c.root, justifiedEpoch := c.justifiedEpoch }

/-- One iteration of the child-selection loop of `updateBestDescendant`:
given the best child so far (`none` when no viable child has been seen),
consider the next child. -/
def selectStep (justifiedEpoch currentEpoch : Nat) (acc : Option Node)
    (child : Node) : Option Node :=
  if child.leadsToViableHead justifiedEpoch currentEpoch then
    match acc with
    | none => some child
    | some best =>
      if child.weight = best.weight then
        if bytesCompare child.root best.root > 0 then some child else some best
      else if child.weight > best.weight then some child
      else some best
  else acc

/-- The full child-selection loop of `updateBestDescendant` (the Go loop
carries `bestChild`, `bestWeight`, `hasViableDescendant`; `bestWeight` always
equals `bestChild.weight` and `hasViableDescendant` iff the accumulator is
non-nil, so an `Option Node` accumulator is a faithful rendering). -/
def selectBest (justifiedEpoch currentEpoch : Nat) (acc : Option Node) :
    List Node → Option Node
  | [] => acc
  | c :: rest =>
    selectBest justifiedEpoch currentEpoch
      (selectStep justifiedEpoch currentEpoch acc c) rest

mutual

/-- `(*Node).updateBestDescendant`: post-order walk updating every node's
`bestDescendant`; children are updated first, then the best viable child is
selected and its best descendant (or the child itself) adopted. -/
def Node.updateBestDescendant
    (justifiedEpoch finalizedEpoch currentEpoch : Nat) : Node → Node
  | .mk r s je fe b w bd cs =>
    if cs.isEmpty then .mk r s je fe b w none cs
    else
      let cs2 := updateBestDescendantList justifiedEpoch finalizedEpoch currentEpoch cs
      match selectBest justifiedEpoch currentEpoch none cs2 with
      | none => .mk r s je fe b w none cs2
      | some best =>
        match best.bestDescendant with
        | none => .mk r s je fe b w (some best.selfInfo) cs2
        | some bi => .mk r s je fe b w (some bi) cs2

/-- The recursion of `updateBestDescendant` into the children. -/
def updateBestDescendantList
    (justifiedEpoch finalizedEpoch currentEpoch : Nat) : List Node → List Node
  | [] => []
  | c :: rest =>
    c.updateBestDescendant justifiedEpoch finalizedEpoch currentEpoch ::
      updateBestDescendantList justifiedEpoch finalizedEpoch currentEpoch rest

end

/-- `c` beats (or ties) `d` in the child-selection order: strictly greater
weight, or equal weight and byte-wise greater-or-equal root. -/
def better (c d : Node) : Prop :=
  d.weight < c.weight ∨ (d.weight = c.weight ∧ 0 ≤ bytesCompare c.root d.root)

/-- The fork-choice store state touched by `applyProposerBoostScore`:
`nodeByRoot` reduced to each node's balance (the only node field the
function reads or writes), plus the boost bookkeeping fields. -/
structure BoostStore where
  balances : List (Root × Nat)
  proposerBoostRoot : Root
  previousProposerBoostRoot : Root
  previousProposerBoostScore : Nat
  committeeWeight : Nat
deriving DecidableEq, Repr

/-- `s.nodeByRoot[root]` (presence and balance). -/
def lookupBalance : List (Root × Nat) → Root → Option Nat
  | [], _ => none
  | (r, b) :: rest, q => if r = q then some b else lookupBalance rest q

/-- In-place mutation of the balance of the node keyed `q` (Go map keys are
unique; updating every matching entry coincides with updating the one). -/
def mapBalance (f : Nat → Nat) (q : Root) : List (Root × Nat) → List (Root × Nat)
  | [] => []
  | (r, b) :: rest =>
    if r = q then (r, f b) :: mapBalance f q rest
    else (r, b) :: mapBalance f q rest

/-- Step 1 of `applyProposerBoostScore`: if `previousProposerBoostRoot` is
non-zero and still in the tree, subtract `previousProposerBoostScore` from
its balance (Go `uint64` subtraction: it wraps; the antithesis assertion
logs but does not stop it). -/
def subPrevBoost (prevRoot : Root) (prevScore : Nat)
    (bal : List (Root × Nat)) : List (Root × Nat) :=
  if prevRoot = zeroHash then bal
  else match lookupBalance bal prevRoot with
    | none => bal
    | some _ => mapBalance (fun b => u64sub b prevScore) prevRoot bal

/-- The `proposerScore` left in the store by `applyProposerBoostScore`:
`(committeeWeight * ProposerScoreBoost) / 100` when `proposerBoostRoot` is
non-zero and present, else the initial `0`. -/
def boostScore (committeeWeight proposerScoreBoost : Nat) (boostRoot : Root)
    (bal : List (Root × Nat)) : Nat :=
  if boostRoot = zeroHash then 0
  else match lookupBalance bal boostRoot with
    | none => 0
    | some _ => ((committeeWeight * proposerScoreBoost) % U64) / 100

/-- Step 2 of `applyProposerBoostScore`: if `proposerBoostRoot` is non-zero
and present, add the computed boost to its balance. -/
def addBoost (committeeWeight proposerScoreBoost : Nat) (boostRoot : Root)
    (bal : List (Root × Nat)) : List (Root × Nat) :=
  if boostRoot = zeroHash then bal
  else match lookupBalance bal boostRoot with
    | none => bal
    | some _ =>
      mapBalance
        (fun b => u64add b (((committeeWeight * proposerScoreBoost) % U64) / 100))
        boostRoot bal

/-- `(*ForkChoice).applyProposerBoostScore` (its Go `error` result is always
`nil`, so only the store update is modelled): withdraw the previous boost,
apply the current one, and shift `previousProposerBoostRoot` /
`previousProposerBoostScore`. -/
def applyProposerBoostScore (proposerScoreBoost : Nat) (s : BoostStore) :
    BoostStore :=
  let b1 := subPrevBoost s.previousProposerBoostRoot
    s.previousProposerBoostScore s.balances
  { s with
      balances := addBoost s.committeeWeight proposerScoreBoost
        s.proposerBoostRoot b1,
      previousProposerBoostRoot := s.proposerBoostRoot,
      previousProposerBoostScore := boostScore s.committeeWeight
        proposerScoreBoost s.proposerBoostRoot b1 }

/-- The fields `pullTips` reads from `node.parent`. -/
structure PTParent where
  unrealizedJustifiedEpoch : Nat
  unrealizedFinalizedEpoch : Nat
deriving DecidableEq, Repr

/-- The fields of a node that `pullTips` reads or writes (`parent = none`
models the tree root's nil parent pointer). -/
structure PTNode where
  parent : Option PTParent
  justifiedEpoch : Nat
  finalizedEpoch : Nat
  unrealizedJustifiedEpoch : Nat
  unrealizedFinalizedEpoch : Nat
deriving DecidableEq, Repr

/-- The store fields `pullTips` touches. -/
structure PTStore where
  unrealizedJustifiedCheckpoint : Checkpoint
  unrealizedFinalizedCheckpoint : Checkpoint
deriving DecidableEq, Repr

/-- `(*Store).pullTips`.  External inputs are passed as values: the clock
epoch `currentEpoch` (`slots.ToEpoch(slots.CurrentSlot(genesisTime))`), the
state's slot, and the result of `precompute.UnrealizedCheckpoints(state)`
(`none` models the error fall-back `uj, uf = jc, fc`).
`slots.ToEpoch` is slot division and `slots.SinceEpochStarts` the slot
remainder by `SlotsPerEpoch`.  Returns the updated store and node along
with the `(jc, fc)` pair the Go function returns. -/
def pullTips (slotsPerEpoch currentEpoch stateSlot : Nat)
    (computed : Option (Checkpoint × Checkpoint))
    (s : PTStore) (node : PTNode) (jc fc : Checkpoint) :
    PTStore × PTNode × Checkpoint × Checkpoint :=
  match node.parent with
  | none => (s, node, jc, fc)
  | some parent =>
    let stateEpoch := stateSlot / slotsPerEpoch
    let currJustified := parent.unrealizedJustifiedEpoch = currentEpoch
    let prevJustified := parent.unrealizedJustifiedEpoch + 1 = currentEpoch
    let tooEarlyForCurr :=
      (stateSlot % slotsPerEpoch) * 3 < slotsPerEpoch * 2
    if currJustified ∨ (stateEpoch = currentEpoch ∧ prevJustified ∧ tooEarlyForCurr)
    then
      (s, { node with
              unrealizedJustifiedEpoch := parent.unrealizedJustifiedEpoch,
              unrealizedFinalizedEpoch := parent.unrealizedFinalizedEpoch },
        jc, fc)
    else
      let uj := (computed.getD (jc, fc)).1
      let uf := (computed.getD (jc, fc)).2
      let s1 := if uj.epoch > s.unrealizedJustifiedCheckpoint.epoch
        then { s with unrealizedJustifiedCheckpoint := uj } else s
      let s2 := if uf.epoch > s1.unrealizedFinalizedCheckpoint.epoch
        then { s1 with unrealizedJustifiedCheckpoint := uj,
                       unrealizedFinalizedCheckpoint := uf }
        else s1
      let node1 := { node with unrealizedJustifiedEpoch := uj.epoch,
                               unrealizedFinalizedEpoch := uf.epoch }
      if stateEpoch < currentEpoch then
        (s2, { node1 with justifiedEpoch := uj.epoch,
                          finalizedEpoch := uf.epoch }, uj, uf)
      else (s2, node1, jc, fc)

/-- The node fields `updateUnrealizedCheckpoints` reads or writes. -/
structure UNode where
  root : Root
  justifiedEpoch : Nat
  finalizedEpoch : Nat
  unrealizedJustifiedEpoch : Nat
  unrealizedFinalizedEpoch : Nat
deriving DecidableEq, Repr

/-- The store fields `updateUnrealizedCheckpoints` touches.  `nodes` is
`nodeByRoot` in some iteration order; `justifiedBalancesFor` logs the roots
passed to the external `updateJustifiedBalances` refresh. -/
structure UStore where
  nodes : List UNode
  justifiedCheckpoint : Checkpoint
  prevJustifiedCheckpoint : Checkpoint
  finalizedCheckpoint : Checkpoint
  prevFinalizedCheckpoint : Checkpoint
  unrealizedJustifiedCheckpoint : Checkpoint
  unrealizedFinalizedCheckpoint : Checkpoint
  justifiedBalancesFor : List Root
deriving DecidableEq, Repr

/-- The per-node copy `node.justifiedEpoch = node.unrealizedJustifiedEpoch;
node.finalizedEpoch = node.unrealizedFinalizedEpoch`. -/
def realizeNode (n : UNode) : UNode :=
  { n with justifiedEpoch := n.unrealizedJustifiedEpoch,
           finalizedEpoch := n.unrealizedFinalizedEpoch }

/-- The store updates one loop iteration of `updateUnrealizedCheckpoints`
performs after copying node `n`'s unrealized epochs. -/
def uucStepStore (n : UNode) (st : UStore) : UStore :=
  let st1 :=
    if st.justifiedCheckpoint.epoch < (realizeNode n).justifiedEpoch then
      { st with
          prevJustifiedCheckpoint := st.justifiedCheckpoint,
          justifiedCheckpoint := st.unrealizedJustifiedCheckpoint,
          justifiedBalancesFor :=
            st.justifiedBalancesFor ++ [st.unrealizedJustifiedCheckpoint.root] }
    else st
  if st1.finalizedCheckpoint.epoch < (realizeNode n).finalizedEpoch then
    { st1 with finalizedCheckpoint := st1.unrealizedFinalizedCheckpoint }
  else st1

/-- The `for _, node := range f.store.nodeByRoot` loop of
`updateUnrealizedCheckpoints`, in the given iteration order. -/
def uucGo : List UNode → UStore → (List UNode × UStore)
  | [], st => ([], st)
  | n :: rest, st =>
    (realizeNode n :: (uucGo rest (uucStepStore n st)).1,
     (uucGo rest (uucStepStore n st)).2)

/-- `(*ForkChoice).updateUnrealizedCheckpoints`. -/
def updateUnrealizedCheckpoints (st : UStore) : UStore :=
  { (uucGo st.nodes st).2 with nodes := (uucGo st.nodes st).1 }

/-- The external `weakSubjectivityDB` collaborator.  Modelled from the spec:
`HasBlock` is a predicate on roots, and `BlockRoots` with the filter
`SetStartSlot(v.slot).SetEndSlot(v.slot + SlotsPerEpoch)` yields the roots of
the half-open slot window `[epochStart(epoch), epochStart(epoch) +
SlotsPerEpoch)` — the `filters.QueryFilter` semantics and the database are
outside the excerpt.  Its error return is not modelled. -/
structure WSDB where
  hasBlock : Root → Bool
  blockRoots : Nat → Nat → List Root

/-- `blockchain.WeakSubjectivityVerifier`. -/
structure WeakSubjectivityVerifier where
  enabled : Bool
  verified : Bool
  root : Root
  epoch : Nat
  slot : Nat
deriving DecidableEq, Repr

/-- The outcomes of `VerifyWeakSubjectivity` (`nil`, `errWSBlockNotFound`,
`errWSBlockNotFoundInEpoch`). -/
inductive WSResult where
  | ok
  | wsBlockNotFound
  | wsBlockNotInEpoch
deriving DecidableEq, Repr

/-- `NewWeakSubjectivityVerifier`: a nil checkpoint, an empty root or a zero
epoch yields a disabled verifier; otherwise an enabled, unverified one whose
slot is the checkpoint epoch's start slot (`slots.EpochStart`, modelled from
the spec as `epoch * SlotsPerEpoch`; its uint64-overflow error return is not
modelled). -/
def NewWeakSubjectivityVerifier (slotsPerEpoch : Nat)
    (wsc : Option Checkpoint) : WeakSubjectivityVerifier :=
  match wsc with
  | none =>
    { enabled := false, verified := false, root := zeroHash, epoch := 0,
      slot := 0 }
  | some c =>
    if c.root = [] ∨ c.epoch = 0 then
      { enabled := false, verified := false, root := zeroHash, epoch := 0,
        slot := 0 }
    else
      { enabled := true, verified := false, root := c.root, epoch := c.epoch,
        slot := c.epoch * slotsPerEpoch }

/-- `(*WeakSubjectivityVerifier).VerifyWeakSubjectivity`: no-op once verified
or when disabled or while the configured epoch is beyond the finalized one;
otherwise probe `HasBlock`, then search the epoch's `BlockRoots` window for
the configured root, latching `verified` on success. -/
def VerifyWeakSubjectivity (slotsPerEpoch : Nat) (db : WSDB)
    (v : WeakSubjectivityVerifier) (finalizedEpoch : Nat) :
    WSResult × WeakSubjectivityVerifier :=
  if v.verified || !v.enabled then (.ok, v)
  else if finalizedEpoch < v.epoch then (.ok, v)
  else if !(db.hasBlock v.root) then (.wsBlockNotFound, v)
  else if v.root ∈ db.blockRoots v.slot (v.slot + slotsPerEpoch) then
    (.ok, { v with verified := true })
  else (.wsBlockNotInEpoch, v)

theorem bytesCompare_self (a : List Nat) : bytesCompare a a = 0 := by
  induction a with
  | nil => rfl
  | cons x xs ih => simp [bytesCompare, ih]

theorem bytesCompare_antisymm (a b : List Nat) :
    bytesCompare a b = -bytesCompare b a := by
  induction a generalizing b with
  | nil => cases b <;> simp [bytesCompare]
  | cons x xs ih =>
    cases b with
    | nil => simp [bytesCompare]
    | cons y ys =>
      by_cases hxy : x < y
      · have : ¬ y < x := by omega
        simp [bytesCompare, hxy, this]
      · by_cases hyx : y < x
        · simp [bytesCompare, hxy, hyx]
        · simp [bytesCompare, hxy, hyx, ih ys]

theorem bytesCompare_trans_nonneg (a b c : List Nat)
    (hab : 0 ≤ bytesCompare a b) (hbc : 0 ≤ bytesCompare b c) :
    0 ≤ bytesCompare a c := by
  induction a generalizing b c with
  | nil =>
    cases b with
    | nil => exact hbc
    | cons y ys => simp [bytesCompare] at hab
  | cons x xs ih =>
    cases b with
    | nil =>
      cases c with
      | nil => simp [bytesCompare]
      | cons z zs => simp [bytesCompare] at hbc
    | cons y ys =>
      cases c with
      | nil => simp [bytesCompare]
      | cons z zs =>
        have hxy : ¬ x < y := by
          intro h
          rw [show bytesCompare (x :: xs) (y :: ys) = -1 from by
            simp [bytesCompare, h]] at hab
          omega
        have hyz : ¬ y < z := by
          intro h
          rw [show bytesCompare (y :: ys) (z :: zs) = -1 from by
            simp [bytesCompare, h]] at hbc
          omega
        by_cases hzx : z < x
        · have h1 : ¬ x < z := by omega
          simp [bytesCompare, h1, hzx]
        · have hxz : x = z := by omega
          have hxy2 : x = y := by omega
          subst hxz
          subst hxy2
          simp [bytesCompare] at hab hbc ⊢
          exact ih ys zs hab hbc

/-- Structural induction for `Node` (children hypothesis given member-wise). -/
theorem Node.strongInd (P : Node → Prop)
    (h : ∀ r s je fe b w bd cs, (∀ c ∈ cs, P c) → P (.mk r s je fe b w bd cs)) :
    ∀ n, P n
  | .mk r s je fe b w bd cs =>
    h r s je fe b w bd cs (fun c hc => Node.strongInd P h c)
termination_by n => sizeOf n
decreasing_by
  have := List.sizeOf_lt_of_mem hc
  simp
  omega

theorem mem_allNodesList {m : Node} {cs : List Node} :
    m ∈ allNodesList cs ↔ ∃ c ∈ cs, m ∈ c.allNodes := by
  induction cs with
  | nil => simp [allNodesList]
  | cons c rest ih => simp [allNodesList, ih]

theorem applyWeightChangesList_eq (cs : List Node) :
    applyWeightChangesList cs = cs.map Node.applyWeightChanges := by
  induction cs with
  | nil => rfl
  | cons c rest ih => simp [applyWeightChangesList, ih]

theorem applyWeightChanges_root (n : Node) :
    n.applyWeightChanges.root = n.root := by
  cases n with
  | mk r s je fe b w bd cs =>
    by_cases h : r = zeroHash <;> simp [Node.applyWeightChanges, h, Node.root]

theorem applyWeightChanges_weight_of_zeroHash (n : Node) (h : n.root = zeroHash) :
    n.applyWeightChanges.weight = n.weight := by
  cases n with
  | mk r s je fe b w bd cs =>
    simp [Node.root] at h
    simp [Node.applyWeightChanges, h, Node.weight]

/-- Main weight-equation lemma: every node of the recomputed subtree whose
root is not the zero hash has `weight = balance + Σ children.weight`
(`uint64` arithmetic). -/
theorem applyWeightChanges_spec (n : Node) :
    ∀ m ∈ n.applyWeightChanges.allNodes, m.root ≠ zeroHash →
      m.weight = u64add m.balance (sumWeights 0 m.children) := by
  induction n using Node.strongInd with
  | h r s je fe b w bd cs ih =>
    intro m hm hroot
    by_cases hr : r = zeroHash
    · simp only [Node.applyWeightChanges, hr, if_pos, Node.allNodes] at hm
      rcases List.mem_cons.1 hm with hm1 | hm2
      · subst hm1; simp [Node.root] at hroot
      · rw [applyWeightChangesList_eq] at hm2
        rcases mem_allNodesList.1 hm2 with ⟨c0, hc0, hmc⟩
        rcases List.mem_map.1 hc0 with ⟨c, hc, rfl⟩
        exact ih c hc m hmc hroot
    · simp only [Node.applyWeightChanges, hr, if_neg, Node.allNodes,
        not_false_iff] at hm
      rcases List.mem_cons.1 hm with hm1 | hm2
      · subst hm1
        simp [Node.weight, Node.balance, Node.children]
      · rw [applyWeightChangesList_eq] at hm2
        rcases mem_allNodesList.1 hm2 with ⟨c0, hc0, hmc⟩
        rcases List.mem_map.1 hc0 with ⟨c, hc, rfl⟩
        exact ih c hc m hmc hroot

/-- C3: after `applyWeightChanges` returns on the tree root, every node other
than the zero-root sentinel satisfies
`weight == balance + Σ children.weight` (in `uint64` arithmetic, as the code
computes it), and the zero-root sentinel's weight is left unchanged. -/
theorem C3_applyWeightChanges_weight_equation (n : Node) :
    (∀ m ∈ n.applyWeightChanges.allNodes, m.root ≠ zeroHash →
      m.weight = u64add m.balance (sumWeights 0 m.children)) ∧
    (n.root = zeroHash → n.applyWeightChanges.weight = n.weight) :=
  ⟨applyWeightChanges_spec n, applyWeightChanges_weight_of_zeroHash n⟩

/-- Witness for C3 at a two-node tree under the zero-root sentinel. -/
theorem C3_witness :
    (Node.root (.mk [1] 1 0 0 5 5 none []) ≠ zeroHash) ∧
    Node.weight (.mk [1] 1 0 0 5 5 none []) =
      u64add (Node.balance (.mk [1] 1 0 0 5 5 none []))
        (sumWeights 0 (Node.children (.mk [1] 1 0 0 5 5 none []))) := by
  refine ⟨by decide, ?_⟩
  refine (C3_applyWeightChanges_weight_equation
    (.mk zeroHash 0 0 0 0 7 none [.mk [1] 1 0 0 5 0 none []])).1
    (.mk [1] 1 0 0 5 5 none []) ?_ (by decide)
  simp [Node.applyWeightChanges, applyWeightChangesList, Node.allNodes,
    allNodesList, zeroHash, sumWeights, u64add, U64]

theorem better_refl (c : Node) : better c c :=
  Or.inr ⟨rfl, le_of_eq (bytesCompare_self c.root).symm⟩

theorem better_trans {a b c : Node} (hab : better a b) (hbc : better b c) :
    better a c := by
  rcases hab with h1 | ⟨h1, h1c⟩ <;> rcases hbc with h2 | ⟨h2, h2c⟩
  · exact Or.inl (by omega)
  · exact Or.inl (by omega)
  · exact Or.inl (by omega)
  · exact Or.inr ⟨by omega, bytesCompare_trans_nonneg _ _ _ h1c h2c⟩

theorem selectStep_better {jE cE : Nat} (b0 c : Node)
    (hb0 : b0.leadsToViableHead jE cE = true) :
    ∃ b1, selectStep jE cE (some b0) c = some b1 ∧
      (b1 = b0 ∨ b1 = c) ∧ b1.leadsToViableHead jE cE = true ∧
      better b1 b0 ∧ (c.leadsToViableHead jE cE = true → better b1 c) := by
  unfold selectStep
  by_cases hv : c.leadsToViableHead jE cE = true
  · simp only [hv, if_pos]
    by_cases heq : c.weight = b0.weight
    · by_cases hgt : bytesCompare c.root b0.root > 0
      · refine ⟨c, by simp [heq, hgt], Or.inr rfl, hv, Or.inr ⟨heq.symm, by omega⟩,
          fun _ => better_refl c⟩
      · refine ⟨b0, by simp [heq, hgt], Or.inl rfl, hb0, better_refl b0,
          fun _ => Or.inr ⟨heq, ?_⟩⟩
        rw [bytesCompare_antisymm]
        omega
    · by_cases hlt : c.weight > b0.weight
      · exact ⟨c, by simp [heq, hlt], Or.inr rfl, hv, Or.inl hlt,
          fun _ => better_refl c⟩
      · exact ⟨b0, by simp [heq, hlt], Or.inl rfl, hb0, better_refl b0,
          fun _ => Or.inl (by omega)⟩
  · exact ⟨b0, by simp [hv], Or.inl rfl, hb0, better_refl b0,
      fun h => absurd h hv⟩

theorem selectBest_spec {jE cE : Nat} :
    ∀ (l : List Node) (b0 : Node), b0.leadsToViableHead jE cE = true →
    ∃ b, selectBest jE cE (some b0) l = some b ∧ (b = b0 ∨ b ∈ l) ∧
      b.leadsToViableHead jE cE = true ∧ better b b0 ∧
      ∀ d ∈ l, d.leadsToViableHead jE cE = true → better b d := by
  intro l
  induction l with
  | nil =>
    intro b0 hb0
    exact ⟨b0, rfl, Or.inl rfl, hb0, better_refl b0, by simp⟩
  | cons c rest ih =>
    intro b0 hb0
    rcases @selectStep_better jE cE b0 c hb0 with
      ⟨b1, hstep, hmem1, hv1, hbet1, hbetc⟩
    rcases ih b1 hv1 with ⟨b, hsel, hmem, hv, hbet, hall⟩
    refine ⟨b, ?_, ?_, hv, better_trans hbet hbet1, ?_⟩
    · simpa [selectBest, hstep] using hsel
    · rcases hmem with rfl | hb
      · rcases hmem1 with rfl | rfl
        · exact Or.inl rfl
        · exact Or.inr (List.mem_cons_self _ _)
      · exact Or.inr (List.mem_cons_of_mem _ hb)
    · intro d hd hdv
      rcases List.mem_cons.1 hd with rfl | hd2
      · exact better_trans hbet (hbetc hdv)
      · exact hall d hd2 hdv

theorem selectBest_from_none {jE cE : Nat} :
    ∀ (l : List Node), (∃ c ∈ l, c.leadsToViableHead jE cE = true) →
    ∃ b ∈ l, selectBest jE cE none l = some b ∧
      b.leadsToViableHead jE cE = true ∧
      ∀ d ∈ l, d.leadsToViableHead jE cE = true → better b d := by
  intro l
  induction l with
  | nil => rintro ⟨c, hc, -⟩; cases hc
  | cons c rest ih =>
    intro hex
    by_cases hv : c.leadsToViableHead jE cE = true
    · rcases selectBest_spec rest c hv with ⟨b, hsel, hmem, hbv, hbet, hall⟩
      refine ⟨b, ?_, ?_, hbv, ?_⟩
      · rcases hmem with rfl | hb
        · exact List.mem_cons_self _ _
        · exact List.mem_cons_of_mem _ hb
      · simpa [selectBest, selectStep, hv] using hsel
      · intro d hd hdv
        rcases List.mem_cons.1 hd with rfl | hd2
        · exact hbet
        · exact hall d hd2 hdv
    · rcases hex with ⟨c0, hc0, hc0v⟩
      rcases List.mem_cons.1 hc0 with rfl | hc02
      · exact absurd hc0v hv
      · rcases ih ⟨c0, hc02, hc0v⟩ with ⟨b, hb, hsel, hbv, hall⟩
        refine ⟨b, List.mem_cons_of_mem _ hb, ?_, hbv, ?_⟩
        · simpa [selectBest, selectStep, hv] using hsel
        · intro d hd hdv
          rcases List.mem_cons.1 hd with rfl | hd2
          · exact absurd hdv hv
          · exact hall d hd2 hdv

theorem selectBest_none_iff {jE cE : Nat} :
    ∀ (l : List Node), selectBest jE cE none l = none ↔
      ∀ c ∈ l, c.leadsToViableHead jE cE = false := by
  intro l
  constructor
  · intro h c hc
    by_contra hv
    rw [Bool.not_eq_false] at hv
    rcases selectBest_from_none l ⟨c, hc, hv⟩ with ⟨b, -, hsel, -, -⟩
    rw [h] at hsel
    cases hsel
  · induction l with
    | nil => intro _; rfl
    | cons c rest ih =>
      intro h
      have hv := h c (List.mem_cons_self _ _)
      have : selectStep jE cE none c = none := by simp [selectStep, hv]
      simpa [selectBest, this] using ih (fun d hd => h d (List.mem_cons_of_mem _ hd))

/-- C2: after `updateBestDescendant` on a node with children: if no updated
child leads to a viable head the node's `bestDescendant` is `none`;
otherwise it is the best descendant of (or, when that child has none, the
child itself, as a `BestInfo`) a child that leads to a viable head and is
maximal among such children by weight, ties on equal weight broken in favour
of the byte-wise lexicographically greater root. -/
theorem C2_updateBestDescendant (jE fE cE : Nat) (n : Node)
    (hcs : n.children ≠ []) :
    ((∀ c ∈ (n.updateBestDescendant jE fE cE).children,
        c.leadsToViableHead jE cE = false) →
      (n.updateBestDescendant jE fE cE).bestDescendant = none) ∧
    ((∃ c ∈ (n.updateBestDescendant jE fE cE).children,
        c.leadsToViableHead jE cE = true) →
      ∃ c ∈ (n.updateBestDescendant jE fE cE).children,
        c.leadsToViableHead jE cE = true ∧
        (∀ d ∈ (n.updateBestDescendant jE fE cE).children,
          d.leadsToViableHead jE cE = true → better c d) ∧
        (n.updateBestDescendant jE fE cE).bestDescendant =
          some (c.bestDescendant.getD c.selfInfo)) := by
  cases n with
  | mk r s je fe b w bd cs =>
    simp only [Node.children] at hcs
    cases cs with
    | nil => exact absurd rfl hcs
    | cons c0 cs0 =>
      rcases hsel : selectBest jE cE none
          (updateBestDescendantList jE fE cE (c0 :: cs0)) with - | best
      · have hupd : (Node.mk r s je fe b w bd (c0 :: cs0)).updateBestDescendant
            jE fE cE =
            .mk r s je fe b w none
              (updateBestDescendantList jE fE cE (c0 :: cs0)) := by
          simp [Node.updateBestDescendant, hsel]
        rw [hupd]
        constructor
        · intro _
          simp [Node.bestDescendant]
        · intro hex
          simp only [Node.children] at hex
          rcases selectBest_from_none _ hex with ⟨b2, -, hsel2, -, -⟩
          rw [hsel] at hsel2
          cases hsel2
      · have hviab : ∃ c ∈ updateBestDescendantList jE fE cE (c0 :: cs0),
            c.leadsToViableHead jE cE = true := by
          by_contra hall
          push_neg at hall
          have : ∀ c ∈ updateBestDescendantList jE fE cE (c0 :: cs0),
              c.leadsToViableHead jE cE = false := by
            intro c hc
            have := hall c hc
            simpa using this
          rw [(selectBest_none_iff _).2 this] at hsel
          cases hsel
        rcases selectBest_from_none _ hviab with ⟨b2, hb2mem, hsel2, hb2v, hb2all⟩
        rw [hsel] at hsel2
        cases hsel2
        have hupd : (Node.mk r s je fe b w bd (c0 :: cs0)).updateBestDescendant
            jE fE cE =
            .mk r s je fe b w (some (best.bestDescendant.getD best.selfInfo))
              (updateBestDescendantList jE fE cE (c0 :: cs0)) := by
          rcases hbd : best.bestDescendant with - | bi <;>
            simp [Node.updateBestDescendant, hsel, hbd]
        rw [hupd]
        constructor
        · intro hnone
          simp only [Node.children] at hnone
          rw [hnone best hb2mem] at hb2v
          cases hb2v
        · intro _
          exact ⟨best, hb2mem, hb2v, fun d hd hdv => hb2all d hd hdv,
            by simp [Node.bestDescendant]⟩

/-- Witness for C2 at the tie-break scenario: a parent with two zero-weight
children of roots `0x11` and `0x22`. -/
theorem C2_witness :
    (Node.children (.mk [0] 1 0 0 0 0 none
        [.mk [17] 2 0 0 0 0 none [], .mk [34] 2 0 0 0 0 none []]) ≠ []) ∧
    (((∀ c ∈ (Node.updateBestDescendant 0 0 0 (.mk [0] 1 0 0 0 0 none
          [.mk [17] 2 0 0 0 0 none [], .mk [34] 2 0 0 0 0 none []])).children,
        c.leadsToViableHead 0 0 = false) →
      (Node.updateBestDescendant 0 0 0 (.mk [0] 1 0 0 0 0 none
          [.mk [17] 2 0 0 0 0 none [], .mk [34] 2 0 0 0 0 none []])).bestDescendant
        = none) ∧
    ((∃ c ∈ (Node.updateBestDescendant 0 0 0 (.mk [0] 1 0 0 0 0 none
          [.mk [17] 2 0 0 0 0 none [], .mk [34] 2 0 0 0 0 none []])).children,
        c.leadsToViableHead 0 0 = true) →
      ∃ c ∈ (Node.updateBestDescendant 0 0 0 (.mk [0] 1 0 0 0 0 none
          [.mk [17] 2 0 0 0 0 none [], .mk [34] 2 0 0 0 0 none []])).children,
        c.leadsToViableHead 0 0 = true ∧
        (∀ d ∈ (Node.updateBestDescendant 0 0 0 (.mk [0] 1 0 0 0 0 none
            [.mk [17] 2 0 0 0 0 none [], .mk [34] 2 0 0 0 0 none []])).children,
          d.leadsToViableHead 0 0 = true → better c d) ∧
        (Node.updateBestDescendant 0 0 0 (.mk [0] 1 0 0 0 0 none
            [.mk [17] 2 0 0 0 0 none [], .mk [34] 2 0 0 0 0 none []])).bestDescendant
          = some (c.bestDescendant.getD c.selfInfo))) :=
  ⟨by simp [Node.children],
   C2_updateBestDescendant 0 0 0
     (.mk [0] 1 0 0 0 0 none
        [.mk [17] 2 0 0 0 0 none [], .mk [34] 2 0 0 0 0 none []])
     (by simp [Node.children])⟩

theorem lookupBalance_mapBalance (f : Nat → Nat) (q : Root)
    (l : List (Root × Nat)) :
    lookupBalance (mapBalance f q l) q = Option.map f (lookupBalance l q) := by
  induction l with
  | nil => rfl
  | cons p rest ih =>
    rcases p with ⟨r, b⟩
    by_cases h : r = q <;> simp [mapBalance, lookupBalance, h, ih]

theorem mapBalance_mapBalance (f g : Nat → Nat) (q : Root)
    (l : List (Root × Nat)) :
    mapBalance f q (mapBalance g q l) = mapBalance (fun b => f (g b)) q l := by
  induction l with
  | nil => rfl
  | cons p rest ih =>
    rcases p with ⟨r, b⟩
    by_cases h : r = q <;> simp [mapBalance, h, ih]

theorem mapBalance_congr {f g : Nat → Nat} (h : ∀ b, f b = g b) (q : Root)
    (l : List (Root × Nat)) : mapBalance f q l = mapBalance g q l := by
  induction l with
  | nil => rfl
  | cons p rest ih =>
    rcases p with ⟨r, b⟩
    by_cases hr : r = q <;> simp [mapBalance, hr, ih, h]

theorem u64_roundtrip (b score : Nat) (h : score < U64) :
    u64add (u64sub (u64add b score) score) score = u64add b score := by
  simp only [u64add, u64sub, U64] at h ⊢
  omega

theorem boost_lt_U64 (committeeWeight proposerScoreBoost : Nat) :
    ((committeeWeight * proposerScoreBoost) % U64) / 100 < U64 :=
  Nat.lt_of_le_of_lt (Nat.div_le_self _ _)
    (Nat.mod_lt _ (by norm_num [U64]))

/-- Withdraw-after-apply: subtracting the boost just added and adding it
back again returns the balances to their post-apply values. -/
theorem addBoost_subPrev_addBoost (cw psb : Nat) (p : Root)
    (b1 : List (Root × Nat)) :
    addBoost cw psb p
      (subPrevBoost p (boostScore cw psb p b1) (addBoost cw psb p b1)) =
    addBoost cw psb p b1 := by
  by_cases hz : p = zeroHash
  · simp [addBoost, subPrevBoost, boostScore, hz]
  · rcases hlook : lookupBalance b1 p with - | bal
    · simp [addBoost, subPrevBoost, boostScore, hz, hlook]
    · have hadd : addBoost cw psb p b1 =
          mapBalance (fun b => u64add b ((cw * psb) % U64 / 100)) p b1 := by
        simp [addBoost, hz, hlook]
      have hscore : boostScore cw psb p b1 = (cw * psb) % U64 / 100 := by
        simp [boostScore, hz, hlook]
      have hlook2 : lookupBalance
          (mapBalance (fun b => u64add b ((cw * psb) % U64 / 100)) p b1) p =
          some (u64add bal ((cw * psb) % U64 / 100)) := by
        rw [lookupBalance_mapBalance, hlook]; rfl
      have hsub : subPrevBoost p ((cw * psb) % U64 / 100)
          (mapBalance (fun b => u64add b ((cw * psb) % U64 / 100)) p b1) =
          mapBalance (fun b => u64sub b ((cw * psb) % U64 / 100)) p
            (mapBalance (fun b => u64add b ((cw * psb) % U64 / 100)) p b1) := by
        simp [subPrevBoost, hz, hlook2]
      rw [hadd, hscore, hsub]
      have hlook3 : lookupBalance
          (mapBalance (fun b => u64sub b ((cw * psb) % U64 / 100)) p
            (mapBalance (fun b => u64add b ((cw * psb) % U64 / 100)) p b1)) p =
          some (u64sub (u64add bal ((cw * psb) % U64 / 100))
            ((cw * psb) % U64 / 100)) := by
        rw [lookupBalance_mapBalance, hlook2]; rfl
      simp only [addBoost, hz, if_neg, not_false_iff, hlook3]
      rw [mapBalance_mapBalance, mapBalance_mapBalance]
      exact mapBalance_congr
        (fun b => u64_roundtrip b _ (boost_lt_U64 cw psb)) _ _

/-- C7: running `applyProposerBoostScore` twice in succession — with
`proposerBoostRoot`, `committeeWeight` and the node set unchanged in
between — leaves every node's balance at its value after the first call. -/
theorem C7_applyProposerBoostScore_idempotent (proposerScoreBoost : Nat)
    (s : BoostStore) :
    (applyProposerBoostScore proposerScoreBoost
      (applyProposerBoostScore proposerScoreBoost s)).balances =
    (applyProposerBoostScore proposerScoreBoost s).balances := by
  show addBoost s.committeeWeight proposerScoreBoost s.proposerBoostRoot
      (subPrevBoost s.proposerBoostRoot _ _) = _
  exact addBoost_subPrev_addBoost _ _ _ _

/-- C8: evaluation showing that with `previousProposerBoostRoot` non-zero and
present and its balance (5) below `previousProposerBoostScore` (10), the
subtraction wraps to `2^64 - 5` and the call completes without surfacing any
`BalanceUnderflow` failure (the Go function always returns `nil`). -/
theorem C8_underflow_wraps :
    (applyProposerBoostScore 40
      { balances := [([1], 5)], proposerBoostRoot := zeroHash,
        previousProposerBoostRoot := [1], previousProposerBoostScore := 10,
        committeeWeight := 0 }).balances = [([1], 18446744073709551611)] ∧
    (5 : Nat) < 10 := by
  refine ⟨?_, by decide⟩
  simp [applyProposerBoostScore, subPrevBoost, addBoost, lookupBalance,
    mapBalance, zeroHash, u64sub, U64]

/-- C4: evaluation exhibiting the non-monotone reassignment — with the
store's unrealized justified checkpoint at epoch 10 and finalized at epoch 3,
a `pullTips` call computing `(uj = 5, uf = 4)` fires the finalized branch,
which also reassigns the unrealized justified checkpoint to `uj`, lowering
its epoch from 10 to 5. -/
theorem C4_pullTips_lowers_unrealized_justified :
    (pullTips 32 20 640 (some (⟨5, [5]⟩, ⟨4, [4]⟩))
      { unrealizedJustifiedCheckpoint := ⟨10, [10]⟩,
        unrealizedFinalizedCheckpoint := ⟨3, [3]⟩ }
      { parent := some ⟨0, 0⟩, justifiedEpoch := 0, finalizedEpoch := 0,
        unrealizedJustifiedEpoch := 0, unrealizedFinalizedEpoch := 0 }
      ⟨0, []⟩ ⟨0, []⟩).1.unrealizedJustifiedCheckpoint.epoch = 5 ∧
    (5 : Nat) < 10 ∧
    (pullTips 32 20 640 (some (⟨5, [5]⟩, ⟨4, [4]⟩))
      { unrealizedJustifiedCheckpoint := ⟨10, [10]⟩,
        unrealizedFinalizedCheckpoint := ⟨3, [3]⟩ }
      { parent := some ⟨0, 0⟩, justifiedEpoch := 0, finalizedEpoch := 0,
        unrealizedJustifiedEpoch := 0, unrealizedFinalizedEpoch := 0 }
      ⟨0, []⟩ ⟨0, []⟩).1.unrealizedFinalizedCheckpoint.epoch = 4 := by
  decide

/-- C6: when the parent is present, the short-circuit does not fire (the
parent's unrealized justified epoch differs from the current epoch; a state
epoch below the current epoch rules out the other disjunct), the unrealized
checkpoints compute successfully, and the state's epoch is strictly below
the current epoch, `pullTips` returns the computed `(uj, uf)` and promotes
the node's realized epochs to `uj.epoch` / `uf.epoch`. -/
theorem C6_pullTips_late_block (slotsPerEpoch currentEpoch stateSlot : Nat)
    (uj uf : Checkpoint) (s : PTStore) (node : PTNode) (parent : PTParent)
    (jc fc : Checkpoint)
    (hpar : node.parent = some parent)
    (hnotcurr : parent.unrealizedJustifiedEpoch ≠ currentEpoch)
    (hlate : stateSlot / slotsPerEpoch < currentEpoch) :
    (pullTips slotsPerEpoch currentEpoch stateSlot (some (uj, uf))
        s node jc fc).2.2 = (uj, uf) ∧
    (pullTips slotsPerEpoch currentEpoch stateSlot (some (uj, uf))
        s node jc fc).2.1.justifiedEpoch = uj.epoch ∧
    (pullTips slotsPerEpoch currentEpoch stateSlot (some (uj, uf))
        s node jc fc).2.1.finalizedEpoch = uf.epoch := by
  have hse : stateSlot / slotsPerEpoch ≠ currentEpoch := Nat.ne_of_lt hlate
  unfold pullTips
  simp [hpar, hnotcurr, hse, hlate]

/-- Witness for C6: a late block (state epoch 20, current epoch 21) with
pre-state realized `(5, 4)` and computed `(uj = 6, uf = 5)`. -/
theorem C6_witness :
    ((PTNode.parent ⟨some ⟨5, 4⟩, 5, 4, 5, 4⟩ = some ⟨5, 4⟩) ∧
      PTParent.unrealizedJustifiedEpoch ⟨5, 4⟩ ≠ 21 ∧ 640 / 32 < 21) ∧
    ((pullTips 32 21 640 (some (⟨6, [6]⟩, ⟨5, [5]⟩)) ⟨⟨0, []⟩, ⟨0, []⟩⟩
        ⟨some ⟨5, 4⟩, 5, 4, 5, 4⟩ ⟨5, []⟩ ⟨4, []⟩).2.2 =
          (⟨6, [6]⟩, ⟨5, [5]⟩) ∧
      (pullTips 32 21 640 (some (⟨6, [6]⟩, ⟨5, [5]⟩)) ⟨⟨0, []⟩, ⟨0, []⟩⟩
        ⟨some ⟨5, 4⟩, 5, 4, 5, 4⟩ ⟨5, []⟩ ⟨4, []⟩).2.1.justifiedEpoch =
          Checkpoint.epoch ⟨6, [6]⟩ ∧
      (pullTips 32 21 640 (some (⟨6, [6]⟩, ⟨5, [5]⟩)) ⟨⟨0, []⟩, ⟨0, []⟩⟩
        ⟨some ⟨5, 4⟩, 5, 4, 5, 4⟩ ⟨5, []⟩ ⟨4, []⟩).2.1.finalizedEpoch =
          Checkpoint.epoch ⟨5, [5]⟩) :=
  ⟨⟨by decide, by decide, by decide⟩,
   C6_pullTips_late_block 32 21 640 ⟨6, [6]⟩ ⟨5, [5]⟩ ⟨⟨0, []⟩, ⟨0, []⟩⟩
     ⟨some ⟨5, 4⟩, 5, 4, 5, 4⟩ ⟨5, 4⟩ ⟨5, []⟩ ⟨4, []⟩
     (by decide) (by decide) (by decide)⟩

theorem uucStepStore_unrealized (n : UNode) (st : UStore) :
    (uucStepStore n st).unrealizedJustifiedCheckpoint =
        st.unrealizedJustifiedCheckpoint ∧
    (uucStepStore n st).unrealizedFinalizedCheckpoint =
        st.unrealizedFinalizedCheckpoint := by
  by_cases h1 : st.justifiedCheckpoint.epoch < n.unrealizedJustifiedEpoch <;>
    by_cases h2 : st.finalizedCheckpoint.epoch < n.unrealizedFinalizedEpoch <;>
    simp [uucStepStore, realizeNode, h1, h2]

theorem uucStepStore_justified_fired (n : UNode) (st : UStore)
    (h : st.justifiedCheckpoint.epoch < n.unrealizedJustifiedEpoch) :
    (uucStepStore n st).justifiedCheckpoint = st.unrealizedJustifiedCheckpoint ∧
    (uucStepStore n st).prevJustifiedCheckpoint = st.justifiedCheckpoint ∧
    (uucStepStore n st).justifiedBalancesFor =
      st.justifiedBalancesFor ++ [st.unrealizedJustifiedCheckpoint.root] := by
  by_cases h2 : st.finalizedCheckpoint.epoch < n.unrealizedFinalizedEpoch <;>
    simp [uucStepStore, realizeNode, h, h2]

theorem uucStepStore_justified_skipped (n : UNode) (st : UStore)
    (h : ¬ st.justifiedCheckpoint.epoch < n.unrealizedJustifiedEpoch) :
    (uucStepStore n st).justifiedCheckpoint = st.justifiedCheckpoint ∧
    (uucStepStore n st).prevJustifiedCheckpoint = st.prevJustifiedCheckpoint ∧
    (uucStepStore n st).justifiedBalancesFor = st.justifiedBalancesFor := by
  by_cases h2 : st.finalizedCheckpoint.epoch < n.unrealizedFinalizedEpoch <;>
    simp [uucStepStore, realizeNode, h, h2]

theorem uucStepStore_finalized_fired (n : UNode) (st : UStore)
    (h : st.finalizedCheckpoint.epoch < n.unrealizedFinalizedEpoch) :
    (uucStepStore n st).finalizedCheckpoint =
      st.unrealizedFinalizedCheckpoint := by
  by_cases h1 : st.justifiedCheckpoint.epoch < n.unrealizedJustifiedEpoch <;>
    simp [uucStepStore, realizeNode, h, h1]

theorem uucStepStore_finalized_skipped (n : UNode) (st : UStore)
    (h : ¬ st.finalizedCheckpoint.epoch < n.unrealizedFinalizedEpoch) :
    (uucStepStore n st).finalizedCheckpoint = st.finalizedCheckpoint := by
  by_cases h1 : st.justifiedCheckpoint.epoch < n.unrealizedJustifiedEpoch <;>
    simp [uucStepStore, realizeNode, h, h1]

theorem uucGo_nodes : ∀ (l : List UNode) (st : UStore),
    (uucGo l st).1 = l.map realizeNode := by
  intro l
  induction l with
  | nil => intro st; rfl
  | cons n rest ih => intro st; simp [uucGo, ih]

theorem uucGo_justified_unchanged : ∀ (l : List UNode) (st : UStore),
    (∀ m ∈ l, m.unrealizedJustifiedEpoch ≤ st.justifiedCheckpoint.epoch) →
    (uucGo l st).2.justifiedCheckpoint = st.justifiedCheckpoint ∧
    (uucGo l st).2.prevJustifiedCheckpoint = st.prevJustifiedCheckpoint ∧
    (uucGo l st).2.justifiedBalancesFor = st.justifiedBalancesFor := by
  intro l
  induction l with
  | nil => intro st _; exact ⟨rfl, rfl, rfl⟩
  | cons n rest ih =>
    intro st hall
    have hn : ¬ st.justifiedCheckpoint.epoch < n.unrealizedJustifiedEpoch :=
      not_lt.2 (hall n (List.mem_cons_self _ _))
    rcases uucStepStore_justified_skipped n st hn with ⟨e1, e2, e3⟩
    have hrest : ∀ m ∈ rest, m.unrealizedJustifiedEpoch ≤
        (uucStepStore n st).justifiedCheckpoint.epoch := by
      intro m hm
      rw [e1]
      exact hall m (List.mem_cons_of_mem _ hm)
    rcases ih (uucStepStore n st) hrest with ⟨f1, f2, f3⟩
    exact ⟨by simp only [uucGo]; rw [f1, e1],
           by simp only [uucGo]; rw [f2, e2],
           by simp only [uucGo]; rw [f3, e3]⟩

theorem uucGo_justified_promoted : ∀ (l : List UNode) (st : UStore),
    (∀ m ∈ l, m.unrealizedJustifiedEpoch ≤
      st.unrealizedJustifiedCheckpoint.epoch) →
    (∃ m ∈ l, st.justifiedCheckpoint.epoch < m.unrealizedJustifiedEpoch) →
    (uucGo l st).2.justifiedCheckpoint = st.unrealizedJustifiedCheckpoint ∧
    (uucGo l st).2.prevJustifiedCheckpoint = st.justifiedCheckpoint ∧
    (uucGo l st).2.justifiedBalancesFor =
      st.justifiedBalancesFor ++ [st.unrealizedJustifiedCheckpoint.root] := by
  intro l
  induction l with
  | nil => rintro st _ ⟨m, hm, -⟩; cases hm
  | cons n rest ih =>
    intro st hub hex
    rcases uucStepStore_unrealized n st with ⟨u1, u2⟩
    by_cases hn : st.justifiedCheckpoint.epoch < n.unrealizedJustifiedEpoch
    · rcases uucStepStore_justified_fired n st hn with ⟨e1, e2, e3⟩
      have hrest : ∀ m ∈ rest, m.unrealizedJustifiedEpoch ≤
          (uucStepStore n st).justifiedCheckpoint.epoch := by
        intro m hm
        rw [e1]
        exact hub m (List.mem_cons_of_mem _ hm)
      rcases uucGo_justified_unchanged rest (uucStepStore n st) hrest with
        ⟨f1, f2, f3⟩
      exact ⟨by simp only [uucGo]; rw [f1, e1],
             by simp only [uucGo]; rw [f2, e2],
             by simp only [uucGo]; rw [f3, e3]⟩
    · rcases uucStepStore_justified_skipped n st hn with ⟨e1, e2, e3⟩
      have hub2 : ∀ m ∈ rest, m.unrealizedJustifiedEpoch ≤
          (uucStepStore n st).unrealizedJustifiedCheckpoint.epoch := by
        intro m hm
        rw [u1]
        exact hub m (List.mem_cons_of_mem _ hm)
      have hex2 : ∃ m ∈ rest,
          (uucStepStore n st).justifiedCheckpoint.epoch <
            m.unrealizedJustifiedEpoch := by
        rcases hex with ⟨m, hm, hlt⟩
        rcases List.mem_cons.1 hm with rfl | hm2
        · exact absurd hlt hn
        · exact ⟨m, hm2, by rw [e1]; exact hlt⟩
      rcases ih (uucStepStore n st) hub2 hex2 with ⟨f1, f2, f3⟩
      refine ⟨?_, ?_, ?_⟩
      · simp only [uucGo]; rw [f1, u1]
      · simp only [uucGo]; rw [f2, e1]
      · simp only [uucGo]; rw [f3, e3, u1]

theorem uucGo_finalized_unchanged : ∀ (l : List UNode) (st : UStore),
    (∀ m ∈ l, m.unrealizedFinalizedEpoch ≤ st.finalizedCheckpoint.epoch) →
    (uucGo l st).2.finalizedCheckpoint = st.finalizedCheckpoint := by
  intro l
  induction l with
  | nil => intro st _; rfl
  | cons n rest ih =>
    intro st hall
    have hn : ¬ st.finalizedCheckpoint.epoch < n.unrealizedFinalizedEpoch :=
      not_lt.2 (hall n (List.mem_cons_self _ _))
    have e1 := uucStepStore_finalized_skipped n st hn
    have hrest : ∀ m ∈ rest, m.unrealizedFinalizedEpoch ≤
        (uucStepStore n st).finalizedCheckpoint.epoch := by
      intro m hm
      rw [e1]
      exact hall m (List.mem_cons_of_mem _ hm)
    have f1 := ih (uucStepStore n st) hrest
    simp only [uucGo]
    rw [f1, e1]

theorem uucGo_finalized_promoted : ∀ (l : List UNode) (st : UStore),
    (∀ m ∈ l, m.unrealizedFinalizedEpoch ≤
      st.unrealizedFinalizedCheckpoint.epoch) →
    (∃ m ∈ l, st.finalizedCheckpoint.epoch < m.unrealizedFinalizedEpoch) →
    (uucGo l st).2.finalizedCheckpoint = st.unrealizedFinalizedCheckpoint := by
  intro l
  induction l with
  | nil => rintro st _ ⟨m, hm, -⟩; cases hm
  | cons n rest ih =>
    intro st hub hex
    rcases uucStepStore_unrealized n st with ⟨u1, u2⟩
    by_cases hn : st.finalizedCheckpoint.epoch < n.unrealizedFinalizedEpoch
    · have e1 := uucStepStore_finalized_fired n st hn
      have hrest : ∀ m ∈ rest, m.unrealizedFinalizedEpoch ≤
          (uucStepStore n st).finalizedCheckpoint.epoch := by
        intro m hm
        rw [e1]
        exact hub m (List.mem_cons_of_mem _ hm)
      have f1 := uucGo_finalized_unchanged rest (uucStepStore n st) hrest
      simp only [uucGo]
      rw [f1, e1]
    · have e1 := uucStepStore_finalized_skipped n st hn
      have hub2 : ∀ m ∈ rest, m.unrealizedFinalizedEpoch ≤
          (uucStepStore n st).unrealizedFinalizedCheckpoint.epoch := by
        intro m hm
        rw [u2]
        exact hub m (List.mem_cons_of_mem _ hm)
      have hex2 : ∃ m ∈ rest,
          (uucStepStore n st).finalizedCheckpoint.epoch <
            m.unrealizedFinalizedEpoch := by
        rcases hex with ⟨m, hm, hlt⟩
        rcases List.mem_cons.1 hm with rfl | hm2
        · exact absurd hlt hn
        · exact ⟨m, hm2, by rw [e1]; exact hlt⟩
      have f1 := ih (uucStepStore n st) hub2 hex2
      simp only [uucGo]
      rw [f1, u2]

/-- C5, counterexample to the claim as stated: a node with unrealized
justified epoch 5 fires a promotion past the stored justified epoch 3, but
the store's unrealized justified checkpoint is at epoch 2, so the promoted
checkpoint's epoch decreases from 3 to 2 instead of strictly increasing. -/
theorem C5_counterexample :
    UStore.prevJustifiedCheckpoint (updateUnrealizedCheckpoints
      ⟨[⟨[1], 0, 0, 5, 0⟩], ⟨3, [3]⟩, ⟨0, []⟩, ⟨0, []⟩, ⟨0, []⟩,
        ⟨2, [2]⟩, ⟨0, []⟩, []⟩) = ⟨3, [3]⟩ ∧
    Checkpoint.epoch (UStore.justifiedCheckpoint (updateUnrealizedCheckpoints
      ⟨[⟨[1], 0, 0, 5, 0⟩], ⟨3, [3]⟩, ⟨0, []⟩, ⟨0, []⟩, ⟨0, []⟩,
        ⟨2, [2]⟩, ⟨0, []⟩, []⟩)) = 2 ∧ (2 : Nat) < 3 := by
  decide

/-- C5 (amended): `updateUnrealizedCheckpoints` copies every node's
unrealized epochs into its realized ones; provided the store's unrealized
checkpoints dominate every node's unrealized epochs, the justified
checkpoint is promoted (to `unrealizedJustifiedCheckpoint`, saving the old
value in `prevJustifiedCheckpoint` and refreshing justified balances for the
new root) exactly when some node's new justified epoch exceeds it, the
promotion strictly increasing its epoch; likewise the finalized checkpoint
(whose promotion sets it to `unrealizedFinalizedCheckpoint`). -/
theorem C5_updateUnrealizedCheckpoints (st : UStore)
    (hJ : ∀ m ∈ st.nodes, m.unrealizedJustifiedEpoch ≤
      st.unrealizedJustifiedCheckpoint.epoch)
    (hF : ∀ m ∈ st.nodes, m.unrealizedFinalizedEpoch ≤
      st.unrealizedFinalizedCheckpoint.epoch) :
    (updateUnrealizedCheckpoints st).nodes = st.nodes.map realizeNode ∧
    ((∃ m ∈ st.nodes, st.justifiedCheckpoint.epoch <
        m.unrealizedJustifiedEpoch) →
      (updateUnrealizedCheckpoints st).justifiedCheckpoint =
        st.unrealizedJustifiedCheckpoint ∧
      (updateUnrealizedCheckpoints st).prevJustifiedCheckpoint =
        st.justifiedCheckpoint ∧
      (updateUnrealizedCheckpoints st).justifiedBalancesFor =
        st.justifiedBalancesFor ++ [st.unrealizedJustifiedCheckpoint.root] ∧
      st.justifiedCheckpoint.epoch <
        (updateUnrealizedCheckpoints st).justifiedCheckpoint.epoch) ∧
    ((∀ m ∈ st.nodes, m.unrealizedJustifiedEpoch ≤
        st.justifiedCheckpoint.epoch) →
      (updateUnrealizedCheckpoints st).justifiedCheckpoint =
        st.justifiedCheckpoint ∧
      (updateUnrealizedCheckpoints st).prevJustifiedCheckpoint =
        st.prevJustifiedCheckpoint ∧
      (updateUnrealizedCheckpoints st).justifiedBalancesFor =
        st.justifiedBalancesFor) ∧
    ((∃ m ∈ st.nodes, st.finalizedCheckpoint.epoch <
        m.unrealizedFinalizedEpoch) →
      (updateUnrealizedCheckpoints st).finalizedCheckpoint =
        st.unrealizedFinalizedCheckpoint ∧
      st.finalizedCheckpoint.epoch <
        (updateUnrealizedCheckpoints st).finalizedCheckpoint.epoch) ∧
    ((∀ m ∈ st.nodes, m.unrealizedFinalizedEpoch ≤
        st.finalizedCheckpoint.epoch) →
      (updateUnrealizedCheckpoints st).finalizedCheckpoint =
        st.finalizedCheckpoint) := by
  have hnodes : (updateUnrealizedCheckpoints st).nodes =
      st.nodes.map realizeNode := by
    simp [updateUnrealizedCheckpoints, uucGo_nodes]
  refine ⟨hnodes, ?_, ?_, ?_, ?_⟩
  · intro hex
    rcases uucGo_justified_promoted st.nodes st hJ hex with ⟨e1, e2, e3⟩
    have g1 : (updateUnrealizedCheckpoints st).justifiedCheckpoint =
        st.unrealizedJustifiedCheckpoint := by
      simpa [updateUnrealizedCheckpoints] using e1
    refine ⟨g1, by simpa [updateUnrealizedCheckpoints] using e2,
      by simpa [updateUnrealizedCheckpoints] using e3, ?_⟩
    rcases hex with ⟨m, hm, hlt⟩
    rw [g1]
    exact lt_of_lt_of_le hlt (hJ m hm)
  · intro hall
    rcases uucGo_justified_unchanged st.nodes st hall with ⟨e1, e2, e3⟩
    exact ⟨by simpa [updateUnrealizedCheckpoints] using e1,
           by simpa [updateUnrealizedCheckpoints] using e2,
           by simpa [updateUnrealizedCheckpoints] using e3⟩
  · intro hex
    have e1 := uucGo_finalized_promoted st.nodes st hF hex
    have g1 : (updateUnrealizedCheckpoints st).finalizedCheckpoint =
        st.unrealizedFinalizedCheckpoint := by
      simpa [updateUnrealizedCheckpoints] using e1
    refine ⟨g1, ?_⟩
    rcases hex with ⟨m, hm, hlt⟩
    rw [g1]
    exact lt_of_lt_of_le hlt (hF m hm)
  · intro hall
    have e1 := uucGo_finalized_unchanged st.nodes st hall
    simpa [updateUnrealizedCheckpoints] using e1

/-- Witness for C5 at a store whose unrealized justified checkpoint (epoch 7)
dominates the single node's unrealized justified epoch 5. -/
theorem C5_witness :
    (updateUnrealizedCheckpoints
      ⟨[⟨[1], 0, 0, 5, 0⟩], ⟨3, [3]⟩, ⟨0, []⟩, ⟨0, []⟩, ⟨0, []⟩,
        ⟨7, [7]⟩, ⟨0, []⟩, []⟩).justifiedCheckpoint = ⟨7, [7]⟩ ∧
    (updateUnrealizedCheckpoints
      ⟨[⟨[1], 0, 0, 5, 0⟩], ⟨3, [3]⟩, ⟨0, []⟩, ⟨0, []⟩, ⟨0, []⟩,
        ⟨7, [7]⟩, ⟨0, []⟩, []⟩).prevJustifiedCheckpoint = ⟨3, [3]⟩ ∧
    (updateUnrealizedCheckpoints
      ⟨[⟨[1], 0, 0, 5, 0⟩], ⟨3, [3]⟩, ⟨0, []⟩, ⟨0, []⟩, ⟨0, []⟩,
        ⟨7, [7]⟩, ⟨0, []⟩, []⟩).nodes = [⟨[1], 5, 0, 5, 0⟩] ∧
    (3 : Nat) < 7 := by
  have h := C5_updateUnrealizedCheckpoints
    ⟨[⟨[1], 0, 0, 5, 0⟩], ⟨3, [3]⟩, ⟨0, []⟩, ⟨0, []⟩, ⟨0, []⟩,
      ⟨7, [7]⟩, ⟨0, []⟩, []⟩ (by decide) (by decide)
  rcases h.2.1 ⟨⟨[1], 0, 0, 5, 0⟩, by decide, by decide⟩ with ⟨g1, g2, -, -⟩
  exact ⟨g1, g2, by rw [h.1]; decide, by decide⟩

/-- C9: for an enabled, not-yet-verified verifier whose configured epoch is
at most the finalized epoch (and whose slot is the epoch's start slot),
`VerifyWeakSubjectivity` fails with `WSBlockNotFound` when the block is not
in the database; otherwise it succeeds exactly when the `BlockRoots` window
`[epochStart(epoch), epochStart(epoch)+SlotsPerEpoch)` contains the root,
failing with `WSBlockNotInEpoch` otherwise; success latches `verified`, and
every subsequent call returns ok whatever database or finalized epoch it is
given. -/
theorem C9_VerifyWeakSubjectivity (slotsPerEpoch : Nat) (db : WSDB)
    (v : WeakSubjectivityVerifier) (finalizedEpoch : Nat)
    (hen : v.enabled = true) (hnv : v.verified = false)
    (hep : v.epoch ≤ finalizedEpoch) (hslot : v.slot = v.epoch * slotsPerEpoch) :
    (db.hasBlock v.root = false →
      (VerifyWeakSubjectivity slotsPerEpoch db v finalizedEpoch).1 =
        .wsBlockNotFound) ∧
    (db.hasBlock v.root = true →
      ((VerifyWeakSubjectivity slotsPerEpoch db v finalizedEpoch).1 = .ok ↔
        v.root ∈ db.blockRoots (v.epoch * slotsPerEpoch)
          (v.epoch * slotsPerEpoch + slotsPerEpoch)) ∧
      (v.root ∉ db.blockRoots (v.epoch * slotsPerEpoch)
          (v.epoch * slotsPerEpoch + slotsPerEpoch) →
        (VerifyWeakSubjectivity slotsPerEpoch db v finalizedEpoch).1 =
          .wsBlockNotInEpoch)) ∧
    ((VerifyWeakSubjectivity slotsPerEpoch db v finalizedEpoch).1 = .ok →
      (VerifyWeakSubjectivity slotsPerEpoch db v finalizedEpoch).2.verified =
        true ∧
      ∀ (db2 : WSDB) (fe2 : Nat),
        VerifyWeakSubjectivity slotsPerEpoch db2
          (VerifyWeakSubjectivity slotsPerEpoch db v finalizedEpoch).2 fe2 =
        (.ok, (VerifyWeakSubjectivity slotsPerEpoch db v finalizedEpoch).2)) := by
  have hfe : ¬ finalizedEpoch < v.epoch := not_lt.2 hep
  rcases hhb : db.hasBlock v.root with - | -
  · have hres : VerifyWeakSubjectivity slotsPerEpoch db v finalizedEpoch =
        (.wsBlockNotFound, v) := by
      simp [VerifyWeakSubjectivity, hen, hnv, hfe, hhb]
    refine ⟨?_, ?_, ?_⟩
    · intro _
      rw [hres]
    · intro hc
      simp at hc
    · intro hok
      rw [hres] at hok
      simp at hok
  · rw [← hslot]
    by_cases hmem : v.root ∈ db.blockRoots v.slot (v.slot + slotsPerEpoch)
    · have hres : VerifyWeakSubjectivity slotsPerEpoch db v finalizedEpoch =
          (.ok, { v with verified := true }) := by
        simp [VerifyWeakSubjectivity, hen, hnv, hfe, hhb, hmem]
      refine ⟨?_, ?_, ?_⟩
      · intro hc
        simp at hc
      · intro _
        refine ⟨⟨fun _ => hmem, fun _ => by rw [hres]⟩, fun hc => absurd hmem hc⟩
      · intro _
        refine ⟨by simp [hres], fun db2 fe2 => ?_⟩
        rw [hres]
        simp [VerifyWeakSubjectivity]
    · have hres : VerifyWeakSubjectivity slotsPerEpoch db v finalizedEpoch =
          (.wsBlockNotInEpoch, v) := by
        simp [VerifyWeakSubjectivity, hen, hnv, hfe, hhb, hmem]
      refine ⟨?_, ?_, ?_⟩
      · intro hc
        simp at hc
      · intro _
        refine ⟨⟨fun hok => ?_, fun hm => absurd hm hmem⟩, fun _ => by rw [hres]⟩
        rw [hres] at hok
        simp at hok
      · intro hok
        rw [hres] at hok
        simp at hok

/-- Witness for C9: checkpoint `{root = 0x09, epoch = 10}`, finalized epoch
12, a database holding the block in the epoch-10 window; the call succeeds,
latches `verified`, and a second call against an empty database is a no-op. -/
theorem C9_witness :
    ((WeakSubjectivityVerifier.enabled ⟨true, false, [9], 10, 320⟩ = true) ∧
      (WeakSubjectivityVerifier.verified ⟨true, false, [9], 10, 320⟩ = false) ∧
      (10 : Nat) ≤ 12 ∧ (320 : Nat) = 10 * 32) ∧
    (VerifyWeakSubjectivity 32
      ⟨fun r => decide (r = [9]), fun _ _ => [[9]]⟩
      ⟨true, false, [9], 10, 320⟩ 12).1 = .ok ∧
    (VerifyWeakSubjectivity 32
      ⟨fun r => decide (r = [9]), fun _ _ => [[9]]⟩
      ⟨true, false, [9], 10, 320⟩ 12).2.verified = true ∧
    VerifyWeakSubjectivity 32 ⟨fun _ => false, fun _ _ => []⟩
      (VerifyWeakSubjectivity 32
        ⟨fun r => decide (r = [9]), fun _ _ => [[9]]⟩
        ⟨true, false, [9], 10, 320⟩ 12).2 0 =
      (.ok, (VerifyWeakSubjectivity 32
        ⟨fun r => decide (r = [9]), fun _ _ => [[9]]⟩
        ⟨true, false, [9], 10, 320⟩ 12).2) := by
  have h := C9_VerifyWeakSubjectivity 32
    ⟨fun r => decide (r = [9]), fun _ _ => [[9]]⟩
    ⟨true, false, [9], 10, 320⟩ 12 rfl rfl (by decide) (by decide)
  have hok : (VerifyWeakSubjectivity 32
      ⟨fun r => decide (r = [9]), fun _ _ => [[9]]⟩
      ⟨true, false, [9], 10, 320⟩ 12).1 = .ok :=
    ((h.2.1 (by decide)).1).mpr (by decide)
  rcases h.2.2 hok with ⟨hv, hall⟩
  exact ⟨⟨rfl, rfl, by decide, by decide⟩, hok, hv,
    hall ⟨fun _ => false, fun _ _ => []⟩ 0⟩

/-- C10: a nil checkpoint, an empty-root checkpoint or a zero-epoch
checkpoint yields a disabled verifier, on which `VerifyWeakSubjectivity`
returns ok for every database and finalized epoch, without consulting the
database. -/
theorem C10_disabled_verifier (slotsPerEpoch : Nat) (wsc : Option Checkpoint)
    (h : wsc = none ∨
      ∃ c, wsc = some c ∧ (c.root = [] ∨ c.epoch = 0)) :
    (NewWeakSubjectivityVerifier slotsPerEpoch wsc).enabled = false ∧
    ∀ (db : WSDB) (finalizedEpoch : Nat),
      VerifyWeakSubjectivity slotsPerEpoch db
        (NewWeakSubjectivityVerifier slotsPerEpoch wsc) finalizedEpoch =
      (.ok, NewWeakSubjectivityVerifier slotsPerEpoch wsc) := by
  rcases h with rfl | ⟨c, rfl, hc⟩
  · exact ⟨rfl, fun db fe => rfl⟩
  · have hdis : NewWeakSubjectivityVerifier slotsPerEpoch (some c) =
        { enabled := false, verified := false, root := zeroHash, epoch := 0,
          slot := 0 } := by
      simp [NewWeakSubjectivityVerifier, hc]
    rw [hdis]
    exact ⟨rfl, fun db fe => rfl⟩

/-- Witness for C10 at a zero-epoch checkpoint. -/
theorem C10_witness :
    ((some (⟨0, [1]⟩ : Checkpoint) = none ∨
      ∃ c, some (⟨0, [1]⟩ : Checkpoint) = some c ∧
        (c.root = [] ∨ c.epoch = 0))) ∧
    (NewWeakSubjectivityVerifier 32 (some ⟨0, [1]⟩)).enabled = false ∧
    ∀ (db : WSDB) (finalizedEpoch : Nat),
      VerifyWeakSubjectivity 32 db
        (NewWeakSubjectivityVerifier 32 (some ⟨0, [1]⟩)) finalizedEpoch =
      (.ok, NewWeakSubjectivityVerifier 32 (some ⟨0, [1]⟩)) :=
  ⟨Or.inr ⟨⟨0, [1]⟩, rfl, Or.inr rfl⟩,
   C10_disabled_verifier 32 (some ⟨0, [1]⟩)
     (Or.inr ⟨⟨0, [1]⟩, rfl, Or.inr rfl⟩)⟩

/-- C1: `viableForHead(n, justifiedEpoch, currentEpoch)` returns true iff
`justifiedEpoch == 0`, or `n.justifiedEpoch == justifiedEpoch`, or
`n.justifiedEpoch + 2 >= currentEpoch`. -/
theorem C1_viableForHead_iff (n : Node) (justifiedEpoch currentEpoch : Nat) :
    n.viableForHead justifiedEpoch currentEpoch = true ↔
      (justifiedEpoch = 0 ∨ n.justifiedEpoch = justifiedEpoch ∨
        n.justifiedEpoch + 2 ≥ currentEpoch) := by
  unfold Node.viableForHead viableForHeadE
  by_cases h : justifiedEpoch = 0 <;> simp [h]

end Prysm
